import Mathlib

/-
Verification of the doc-search core against its design document.

Python strings are embedded as `List Char`; file contents as lists of raw
lines (each line as delivered by Python file iteration, i.e. possibly with a
trailing newline character).  Fallible file reads are embedded as
`Option (List (List Char))` (`none` = the read raises an IO error).
External collaborators (the ripgrep binary, the Python `re` engine, the
embedding models, the md5 digest) are not part of this repository; they are
embedded either as explicit function parameters or as definitions modelled
from the design document, each marked as such in its doc comment.
-/

namespace DocSearch

/-! ## String primitives -/

/-- Character-wise lower casing, embedding Python `str.lower` for the
case-insensitive comparisons performed by the scanner. -/
def lowerChars (s : List Char) : List Char := s.map Char.toLower

/-- Decides whether the needle `q` occurs in the haystack `l` at position `p`
(Python `l[p:p+len(q)] == q`, with `p ≤ len l` as Python `str.find` requires
for a hit). -/
def occursAtB (q l : List Char) (p : Nat) : Bool :=
  decide (p ≤ l.length) && q.isPrefixOf (l.drop p)

/-- Embeds Python `l.find(q, start)`: the least position `p ≥ start` at which
`q` occurs in `l`, or `none` when Python returns `-1`. -/
def pyFind (q l : List Char) (start : Nat) : Option Nat :=
  (((List.range (l.length + 1)).filter
      (fun p => decide (start ≤ p) && occursAtB q l p))).head?

/-- Fuel-indexed loop body of the literal branch of `_search_with_python`
(ripgrep_wrapper.py lines 192-205): repeatedly `find` from `start`, emit the
position, and continue from `pos + 1`. -/
def pyLiteralScan (q l : List Char) : Nat → Nat → List Nat
  | 0, _ => []
  | fuel + 1, start =>
    match pyFind q l start with
    | none => []
    | some p => p :: pyLiteralScan q l fuel (p + 1)

/-- All positions emitted by the literal while-loop of
`_search_with_python`, starting the scan at position 0.  The fuel
`l.length + 1` dominates the number of iterations (positions strictly
increase and are bounded by `l.length`). -/
def pyLiteralPositions (q l : List Char) : List Nat :=
  pyLiteralScan q l (l.length + 1) 0

/-- Modelled from the spec: the literal-mode matching of the external
accelerated matcher (the ripgrep binary, §6 collaborator boundary, invoked
with `-F`), which is not part of this repository.  It reports leftmost
matches with the standard non-overlapping advance: after a match at `p` the
scan resumes at the end of the match (`p + len q`, or `p + 1` for an empty
pattern). -/
def rgScan (q l : List Char) : Nat → Nat → List Nat
  | 0, _ => []
  | fuel + 1, start =>
    match pyFind q l start with
    | none => []
    | some p => p :: rgScan q l fuel (p + max q.length 1)

/-- Modelled from the spec: all match positions the accelerated matcher
reports on one line in literal mode. -/
def rgLiteralPositions (q l : List Char) : List Nat :=
  rgScan q l (l.length + 1) 0

/-- Embeds Python `line.rstrip('\n')` as used for `line_content`. -/
def rstripNl (l : List Char) : List Char :=
  (l.reverse.dropWhile (fun c => c = '\n')).reverse

/-! ## Characterisation of the literal scan -/

theorem occursAtB_le_length {q l : List Char} {p : Nat}
    (h : occursAtB q l p = true) : p ≤ l.length := by
  have := (Bool.and_eq_true _ _).mp h
  exact of_decide_eq_true this.1

/-- The filtered range underlying `pyFind`: all occurrence positions. -/
def occList (q l : List Char) : List Nat :=
  (List.range (l.length + 1)).filter (occursAtB q l)

theorem occList_pairwise (q l : List Char) :
    (occList q l).Pairwise (· < ·) :=
  (List.pairwise_lt_range _).filter _

theorem mem_occList_le {q l : List Char} {p : Nat}
    (h : p ∈ occList q l) : p ≤ l.length := by
  have := List.of_mem_filter h
  exact occursAtB_le_length this

theorem pyFind_eq_head (q l : List Char) (start : Nat) :
    pyFind q l start =
      ((occList q l).filter (fun p => decide (start ≤ p))).head? := by
  unfold pyFind occList
  rw [List.filter_filter]

theorem filter_ge_head_tail {L : List Nat} (hL : L.Pairwise (· < ·))
    {start p : Nat} {t : List Nat}
    (h : L.filter (fun x => decide (start ≤ x)) = p :: t) :
    t = L.filter (fun x => decide (p + 1 ≤ x)) := by
  induction L with
  | nil => simp at h
  | cons a L ih =>
    have ha : ∀ x ∈ L, a < x := fun x hx => (List.pairwise_cons.mp hL).1 x hx
    have hL' : L.Pairwise (· < ·) := (List.pairwise_cons.mp hL).2
    rw [List.filter_cons] at h
    by_cases hs : start ≤ a
    · rw [if_pos (decide_eq_true hs)] at h
      injection h with h1 h2
      subst h1
      rw [List.filter_cons, if_neg (by simp only [decide_eq_true_eq]; omega)]
      rw [← h2]
      apply List.filter_congr
      intro x hx
      have hax := ha x hx
      simp only [decide_eq_decide]
      omega
    · rw [if_neg (by simpa using hs)] at h
      have ht := ih hL' h
      have hpL : p ∈ L := by
        have : p ∈ L.filter (fun x => decide (start ≤ x)) := by
          rw [h]; exact List.mem_cons_self _ _
        exact List.mem_of_mem_filter this
      rw [List.filter_cons, if_neg]
      · exact ht
      · have := ha p hpL
        simp only [decide_eq_true_eq]
        omega

theorem pyLiteralScan_eq_filter (q l : List Char) :
    ∀ (fuel start : Nat), l.length + 1 - start ≤ fuel →
      pyLiteralScan q l fuel start =
        (occList q l).filter (fun p => decide (start ≤ p)) := by
  intro fuel
  induction fuel with
  | zero =>
    intro start hs
    have hlen : l.length + 1 ≤ start := by omega
    simp only [pyLiteralScan]
    symm
    rw [List.filter_eq_nil_iff]
    intro p hp
    have := mem_occList_le hp
    simp only [decide_eq_true_eq]
    omega
  | succ fuel ih =>
    intro start hs
    simp only [pyLiteralScan, pyFind_eq_head]
    cases h : ((occList q l).filter (fun p => decide (start ≤ p))).head? with
    | none =>
      rw [List.head?_eq_none_iff] at h
      rw [h]
    | some p =>
      obtain ⟨t, ht⟩ : ∃ t, (occList q l).filter (fun p => decide (start ≤ p)) = p :: t := by
        cases hc : (occList q l).filter (fun p => decide (start ≤ p)) with
        | nil => rw [hc] at h; simp at h
        | cons x xs =>
          rw [hc] at h
          simp only [List.head?_cons, Option.some.injEq] at h
          subst h
          exact ⟨xs, rfl⟩
      have hmem : p ∈ occList q l := by
        have : p ∈ (occList q l).filter (fun x => decide (start ≤ x)) := by
          rw [ht]; exact List.mem_cons_self _ _
        exact List.mem_of_mem_filter this
      have hstart : start ≤ p := by
        have : p ∈ (occList q l).filter (fun x => decide (start ≤ x)) := by
          rw [ht]; exact List.mem_cons_self _ _
        have := List.of_mem_filter this
        exact of_decide_eq_true this
      have hple := mem_occList_le hmem
      have htail := filter_ge_head_tail (occList_pairwise q l) ht
      rw [ht]
      show p :: pyLiteralScan q l fuel (p + 1) = p :: t
      rw [ih (p + 1) (by omega), htail]

/-- The literal scan from position 0 yields precisely the (sorted, duplicate
free) list of all occurrence positions. -/
theorem pyLiteralPositions_eq_occList (q l : List Char) :
    pyLiteralPositions q l = occList q l := by
  unfold pyLiteralPositions
  rw [pyLiteralScan_eq_filter q l (l.length + 1) 0 (by omega)]
  apply List.filter_eq_self.mpr
  intro a _
  simp

theorem pyFind_mem_occList {q l : List Char} {start p : Nat}
    (h : pyFind q l start = some p) : p ∈ occList q l := by
  rw [pyFind_eq_head] at h
  have : p ∈ (occList q l).filter (fun x => decide (start ≤ x)) :=
    List.mem_of_mem_head? h
  exact List.mem_of_mem_filter this

/-- Every position reported by the (spec-modelled) accelerated literal
matcher is an occurrence position. -/
theorem rgScan_subset_occList (q l : List Char) :
    ∀ (fuel start p : Nat), p ∈ rgScan q l fuel start → p ∈ occList q l := by
  intro fuel
  induction fuel with
  | zero => intro start p hp; simp [rgScan] at hp
  | succ fuel ih =>
    intro start p hp
    simp only [rgScan] at hp
    cases h : pyFind q l start with
    | none => rw [h] at hp; simp at hp
    | some x =>
      rw [h] at hp
      rcases List.mem_cons.mp hp with rfl | hmem
      · exact pyFind_mem_occList h
      · exact ih _ _ hmem

theorem rgLiteralPositions_subset (q l : List Char) {p : Nat}
    (h : p ∈ rgLiteralPositions q l) : p ∈ pyLiteralPositions q l := by
  rw [pyLiteralPositions_eq_occList]
  exact rgScan_subset_occList q l _ _ p h

/-! ## Data model of the lexical engine (ripgrep_wrapper.py) -/

/-- Embeds the `SearchOptions` dataclass (ripgrep_wrapper.py lines 29-36). -/
structure SearchOptions where
  case_sensitive : Bool := true
  use_regex : Bool := true
  file_types : Option (List String) := none
  max_results : Option Nat := none
  context_lines : Nat := 0

/-- Embeds the `SearchResult` dataclass (ripgrep_wrapper.py lines 19-26). -/
structure SearchResult where
  file_path : String
  line_number : Nat
  line_content : List Char
  match_start : Nat
  match_end : Nat
deriving DecidableEq

/-- The identity tuple of a match used by the equivalence contract:
`(document_path, line_number, match_start, match_end)`. -/
def toTuple (r : SearchResult) : String × Nat × Nat × Nat :=
  (r.file_path, r.line_number, r.match_start, r.match_end)

/-- A file of the corpus: its path and either its raw lines (as Python file
iteration delivers them, trailing newline included) or `none` when opening
the file raises an `IOError`/`OSError`. -/
abbrev PyFile : Type := String × Option (List (List Char))

/-- Embeds `file_patterns` (ripgrep_wrapper.py lines 163-165): the default
document extensions when `file_types` is unset, else the requested ones. -/
def filePatterns (file_types : Option (List String)) : List String :=
  match file_types with
  | none => ["md", "py", "txt"]
  | some fts => fts

/-- Decides whether a file name matches the glob `*.ext`. -/
def hasExt (ext : String) (name : String) : Bool :=
  ("." ++ ext).toList.isSuffixOf name.toList

/-- Embeds the nested iteration `for pattern in file_patterns: for file_path
in path.rglob(pattern)` (lines 170-171): files are visited grouped by
pattern, in corpus order within each pattern. -/
def visitOrder (patterns : List String) (files : List PyFile) : List PyFile :=
  patterns.flatMap (fun ext => files.filter (fun f => hasExt ext f.1))

/-- Normalisation applied by the scanner before a literal comparison:
lower-case both sides when the search is case-insensitive (lines 160, 191). -/
def pyNormalize (case_sensitive : Bool) (s : List Char) : List Char :=
  if case_sensitive then s else lowerChars s

/-- Embeds the literal branch of the per-line matching (lines 190-205): all
find-positions of the normalised query in the normalised line, each paired
with `pos + len(query)` as `match_end`. -/
def pyLiteralMatcher (case_sensitive : Bool) (q : List Char)
    (line : List Char) : List (Nat × Nat) :=
  (pyLiteralPositions (pyNormalize case_sensitive q)
      (pyNormalize case_sensitive line)).map (fun p => (p, p + q.length))

/-- Records produced for one readable file: lines enumerated from 1, each
line handed to the per-line matcher, `line_content` newline-stripped. -/
def fileRecords (matcher : List Char → List (Nat × Nat)) (name : String)
    (lines : List (List Char)) : List SearchResult :=
  (List.enumFrom 1 lines).flatMap
    (fun nl => (matcher nl.2).map
      (fun se => ⟨name, nl.1, rstripNl nl.2, se.1, se.2⟩))

/-- Embeds the guard `result_count >= (options.max_results or float('inf'))`
(line 172).  A `max_results` of `0` is falsy in Python, so it disables the
bound exactly like `None`. -/
def stopCheck (max_results : Option Nat) (count : Nat) : Bool :=
  match max_results with
  | none => false
  | some n => if n = 0 then false else decide (n ≤ count)

/-- Embeds the file loop of `_search_with_python` (lines 167-208): before
each file the guard is checked; an unreadable file is skipped (the
`IOError`/`OSError` handler, lines 207-208); a readable file contributes all
of its records and advances the count. -/
def pyScanFiles (matcher : List Char → List (Nat × Nat))
    (max_results : Option Nat) : List PyFile → Nat → List SearchResult
  | [], _ => []
  | f :: rest, count =>
    if stopCheck max_results count then []
    else
      match f.2 with
      | none => pyScanFiles matcher max_results rest count
      | some lines =>
        let recs := fileRecords matcher f.1 lines
        recs ++ pyScanFiles matcher max_results rest (count + recs.length)

/-- Companion instrumentation of `pyScanFiles`: the files whose open is
attempted, each paired with the value of `result_count` at that moment. -/
def pyOpenedFiles (matcher : List Char → List (Nat × Nat))
    (max_results : Option Nat) : List PyFile → Nat → List (String × Nat)
  | [], _ => []
  | f :: rest, count =>
    if stopCheck max_results count then []
    else
      match f.2 with
      | none => (f.1, count) :: pyOpenedFiles matcher max_results rest count
      | some lines =>
        (f.1, count) ::
          pyOpenedFiles matcher max_results rest
            (count + (fileRecords matcher f.1 lines).length)

/-- Embeds `_search_with_python` (ripgrep_wrapper.py lines 147-208).  The
compiled-regex engine of the `re` module is external to the repository and is
passed in as the abstract per-line matcher `reEngine`; in literal mode the
scanner uses its own find loop. -/
def searchWithPython (reEngine : List Char → List (Nat × Nat))
    (q : List Char) (options : SearchOptions) (files : List PyFile) :
    List SearchResult :=
  let matcher :=
    if options.use_regex then reEngine
    else pyLiteralMatcher options.case_sensitive q
  pyScanFiles matcher options.max_results
    (visitOrder (filePatterns options.file_types) files) 0

/-- All records of a visited-file list with no result bound: the total match
list of the corpus. -/
def allRecords (matcher : List Char → List (Nat × Nat)) :
    List PyFile → List SearchResult
  | [] => []
  | f :: rest =>
    (match f.2 with
     | none => []
     | some lines => fileRecords matcher f.1 lines) ++ allRecords matcher rest

/-- Modelled from the spec: the per-line literal matching of the accelerated
matcher, non-overlapping positions with `match_end = p + len(query)` taken
from the submatch byte range. -/
def rgLiteralMatcher (case_sensitive : Bool) (q : List Char)
    (line : List Char) : List (Nat × Nat) :=
  (rgLiteralPositions (pyNormalize case_sensitive q)
      (pyNormalize case_sensitive line)).map (fun p => (p, p + q.length))

/-- Modelled from the spec: the accelerated path `_search_with_ripgrep`
(ripgrep_wrapper.py lines 86-145) in literal mode with no result bound.  The
ripgrep binary walks every file under the root (no type filter is passed when
`file_types` is unset), skips files it cannot read, and its JSON match events
are parsed one `SearchResult` per submatch with the newline-stripped line
text (lines 122-134). -/
def rgSearchLiteral (case_sensitive : Bool) (q : List Char)
    (files : List PyFile) : List SearchResult :=
  files.flatMap (fun f =>
    match f.2 with
    | none => []
    | some lines => fileRecords (rgLiteralMatcher case_sensitive q) f.1 lines)

/-- Decides whether a file name carries one of the default document
extensions scanned by the fallback. -/
def hasDefaultExt (name : String) : Bool :=
  hasExt "md" name || hasExt "py" name || hasExt "txt" name

/-! ## Lemmas about the fallback file loop -/

theorem pyScanFiles_none_eq_allRecords
    (m : List Char → List (Nat × Nat)) :
    ∀ (vfiles : List PyFile) (count : Nat),
      pyScanFiles m none vfiles count = allRecords m vfiles := by
  intro vfiles
  induction vfiles with
  | nil => intro count; rfl
  | cons f rest ih =>
    intro count
    simp only [pyScanFiles, stopCheck, allRecords]
    cases f.2 with
    | none => simp [ih]
    | some lines => simp [ih]

theorem pyScanFiles_isPrefix_allRecords
    (m : List Char → List (Nat × Nat)) (N : Nat) :
    ∀ (vfiles : List PyFile) (count : Nat),
      pyScanFiles m (some N) vfiles count <+: allRecords m vfiles := by
  intro vfiles
  induction vfiles with
  | nil => intro count; simp [pyScanFiles, allRecords]
  | cons f rest ih =>
    intro count
    simp only [pyScanFiles, allRecords]
    by_cases hstop : stopCheck (some N) count = true
    · rw [if_pos hstop]; exact List.nil_prefix
    · rw [if_neg hstop]
      cases hf : f.2 with
      | none =>
        obtain ⟨t, ht⟩ := ih count
        exact ⟨t, by simpa using ht⟩
      | some lines =>
        obtain ⟨t, ht⟩ := ih (count + (fileRecords m f.1 lines).length)
        exact ⟨t, by rw [List.append_assoc, ht]⟩

theorem pyScanFiles_min_le (m : List Char → List (Nat × Nat)) {N : Nat}
    (hN : 0 < N) :
    ∀ (vfiles : List PyFile) (count : Nat),
      min (N - count) (allRecords m vfiles).length ≤
        (pyScanFiles m (some N) vfiles count).length := by
  intro vfiles
  induction vfiles with
  | nil => intro count; simp [allRecords]
  | cons f rest ih =>
    intro count
    simp only [pyScanFiles, allRecords]
    have hsc : stopCheck (some N) count = decide (N ≤ count) := by
      simp only [stopCheck]
      rw [if_neg (by omega)]
    by_cases hle : N ≤ count
    · rw [hsc, if_pos (by simpa using hle)]
      have : N - count = 0 := by omega
      simp [this]
    · rw [hsc, if_neg (by simpa using hle)]
      cases hf : f.2 with
      | none =>
        have := ih count
        simpa using this
      | some lines =>
        have h1 := ih (count + (fileRecords m f.1 lines).length)
        simp only [List.length_append]
        simp only [Nat.min_def] at h1 ⊢
        split_ifs at h1 ⊢ <;> omega

theorem pyOpenedFiles_guard (m : List Char → List (Nat × Nat)) {N : Nat}
    (hN : 0 < N) :
    ∀ (vfiles : List PyFile) (count : Nat),
      ∀ pr ∈ pyOpenedFiles m (some N) vfiles count, pr.2 < N := by
  intro vfiles
  induction vfiles with
  | nil => intro count pr hpr; simp [pyOpenedFiles] at hpr
  | cons f rest ih =>
    intro count pr hpr
    simp only [pyOpenedFiles] at hpr
    by_cases hle : N ≤ count
    · rw [if_pos (by simp only [stopCheck]; rw [if_neg (by omega)]; simpa using hle)] at hpr
      simp at hpr
    · rw [if_neg (by simp only [stopCheck]; rw [if_neg (by omega)]; simpa using hle)] at hpr
      cases hf : f.2 with
      | none =>
        rw [hf] at hpr
        rcases List.mem_cons.mp hpr with rfl | hmem
        · simpa using Nat.lt_of_not_le hle
        · exact ih count pr hmem
      | some lines =>
        rw [hf] at hpr
        rcases List.mem_cons.mp hpr with rfl | hmem
        · simpa using Nat.lt_of_not_le hle
        · exact ih _ pr hmem

theorem pyScanFiles_filter_readable (m : List Char → List (Nat × Nat))
    (maxr : Option Nat) :
    ∀ (vfiles : List PyFile) (count : Nat),
      pyScanFiles m maxr vfiles count =
        pyScanFiles m maxr (vfiles.filter (fun f => f.2.isSome)) count := by
  intro vfiles
  induction vfiles with
  | nil => intro count; rfl
  | cons f rest ih =>
    intro count
    by_cases hstop : stopCheck maxr count = true
    · have hL : pyScanFiles m maxr (f :: rest) count = [] := by
        simp [pyScanFiles, hstop]
      rw [hL]
      cases hf : f.2 with
      | none =>
        simp only [List.filter_cons, hf, Option.isSome_none]
        rw [if_neg (by simp)]
        cases hrest : rest.filter (fun f => f.2.isSome) with
        | nil => rfl
        | cons g t => simp [pyScanFiles, hstop]
      | some lines =>
        simp only [List.filter_cons, hf, Option.isSome_some]
        rw [if_pos trivial]
        simp [pyScanFiles, hstop]
    · cases hf : f.2 with
      | none =>
        simp only [List.filter_cons, hf, Option.isSome_none]
        rw [if_neg (by simp)]
        simp [pyScanFiles, hstop, hf, ih count]
      | some lines =>
        simp only [List.filter_cons, hf, Option.isSome_some]
        rw [if_pos trivial]
        simp [pyScanFiles, hstop, hf, ih]

theorem visitOrder_filter (patterns : List String) (P : PyFile → Bool) :
    ∀ files : List PyFile,
      visitOrder patterns (files.filter P) =
        (visitOrder patterns files).filter P := by
  intro files
  unfold visitOrder
  induction patterns with
  | nil => rfl
  | cons e pats ih =>
    simp only [List.flatMap_cons, List.filter_append, ih]
    congr 1
    rw [List.filter_filter, List.filter_filter]
    apply List.filter_congr
    intro f _
    rw [Bool.and_comm]

/-! ## Membership lemmas used for the path-equivalence claim -/

theorem rgLiteralMatcher_subset (cs : Bool) (q line : List Char) :
    ∀ se ∈ rgLiteralMatcher cs q line, se ∈ pyLiteralMatcher cs q line := by
  intro se hse
  unfold rgLiteralMatcher at hse
  unfold pyLiteralMatcher
  obtain ⟨p, hp, rfl⟩ := List.mem_map.mp hse
  exact List.mem_map.mpr ⟨p, rgLiteralPositions_subset _ _ hp, rfl⟩

theorem fileRecords_mono {m1 m2 : List Char → List (Nat × Nat)}
    (h : ∀ line, ∀ se ∈ m1 line, se ∈ m2 line) (name : String)
    (lines : List (List Char)) :
    ∀ r ∈ fileRecords m1 name lines, r ∈ fileRecords m2 name lines := by
  intro r hr
  unfold fileRecords at hr ⊢
  obtain ⟨nl, hnl, hr2⟩ := List.mem_flatMap.mp hr
  obtain ⟨se, hse, rfl⟩ := List.mem_map.mp hr2
  exact List.mem_flatMap.mpr ⟨nl, hnl, List.mem_map.mpr ⟨se, h _ se hse, rfl⟩⟩

theorem mem_allRecords_of_mem_file (m : List Char → List (Nat × Nat))
    {vfiles : List PyFile} {f : PyFile} {lines : List (List Char)}
    {r : SearchResult} (hfm : f ∈ vfiles) (hf : f.2 = some lines)
    (hr : r ∈ fileRecords m f.1 lines) : r ∈ allRecords m vfiles := by
  induction vfiles with
  | nil => simp at hfm
  | cons g rest ih =>
    simp only [allRecords, List.mem_append]
    rcases List.mem_cons.mp hfm with rfl | hmem
    · left; rw [hf]; exact hr
    · right; exact ih hmem

theorem mem_visitOrder_of_defaultExt {f : PyFile} {files : List PyFile}
    (hfm : f ∈ files) (hext : hasDefaultExt f.1 = true) :
    f ∈ visitOrder (filePatterns none) files := by
  unfold visitOrder filePatterns
  apply List.mem_flatMap.mpr
  unfold hasDefaultExt at hext
  rcases Bool.or_eq_true _ _ |>.mp hext with h | htxt
  · rcases Bool.or_eq_true _ _ |>.mp h with hmd | hpy
    · exact ⟨"md", by simp, List.mem_filter.mpr ⟨hfm, hmd⟩⟩
    · exact ⟨"py", by simp, List.mem_filter.mpr ⟨hfm, hpy⟩⟩
  · exact ⟨"txt", by simp, List.mem_filter.mpr ⟨hfm, htxt⟩⟩

/-! ## Claim C1 -/

/-- C1 counterexample.  The claim says the fallback scanner yields exactly
`min(N, total matches)` records.  On a corpus with one file whose single line
holds two matches and `max_results = 1`, the scanner yields 2 records while
`min(1, 2) = 1`: the guard runs only before opening a file, never between
matches, so every match of an opened file is emitted. -/
theorem fallback_not_exactly_min_counterexample :
    (searchWithPython (fun _ => []) ("aa".toList)
        ⟨true, false, none, some 1, 0⟩ [("a.md", some ["aaa".toList])]).length ≠
      min 1 ((searchWithPython (fun _ => []) ("aa".toList)
        ⟨true, false, none, none, 0⟩ [("a.md", some ["aaa".toList])]).length) := by
  decide

/-- C1 (amended): with `max_results = N > 0` the fallback scanner yields at
least `min(N, total matches)` records, its output is a prefix of the
unbounded match stream (so it can only overrun `N` by further matches of the
file containing the Nth match), and the bound is checked before opening each
file: every file whose open is attempted is reached with fewer than `N`
results already emitted. -/
theorem fallback_max_results_amended (reEngine : List Char → List (Nat × Nat))
    (q : List Char) (cs ur : Bool) (fts : Option (List String)) (ctx : Nat)
    (files : List PyFile) (N : Nat) (hN : 0 < N) :
    min N (searchWithPython reEngine q ⟨cs, ur, fts, none, ctx⟩ files).length ≤
        (searchWithPython reEngine q ⟨cs, ur, fts, some N, ctx⟩ files).length
      ∧ (searchWithPython reEngine q ⟨cs, ur, fts, some N, ctx⟩ files) <+:
          (searchWithPython reEngine q ⟨cs, ur, fts, none, ctx⟩ files)
      ∧ ∀ pr ∈ pyOpenedFiles
            (if ur then reEngine else pyLiteralMatcher cs q) (some N)
            (visitOrder (filePatterns fts) files) 0,
          pr.2 < N := by
  have hu : searchWithPython reEngine q ⟨cs, ur, fts, none, ctx⟩ files =
      pyScanFiles (if ur then reEngine else pyLiteralMatcher cs q) none
        (visitOrder (filePatterns fts) files) 0 := rfl
  have hb : searchWithPython reEngine q ⟨cs, ur, fts, some N, ctx⟩ files =
      pyScanFiles (if ur then reEngine else pyLiteralMatcher cs q) (some N)
        (visitOrder (filePatterns fts) files) 0 := rfl
  rw [hu, hb, pyScanFiles_none_eq_allRecords]
  refine ⟨?_, ?_, ?_⟩
  · have := pyScanFiles_min_le (if ur then reEngine else pyLiteralMatcher cs q)
      hN (visitOrder (filePatterns fts) files) 0
    simpa using this
  · exact pyScanFiles_isPrefix_allRecords _ _ _ 0
  · exact pyOpenedFiles_guard _ hN _ 0

/-- C1 witness: the amended bound at a concrete corpus and `N = 1`. -/
theorem fallback_max_results_amended_witness :
    0 < 1 ∧
      (min 1 (searchWithPython (fun _ => []) ("aa".toList)
          ⟨true, false, none, none, 0⟩ [("a.md", some ["aaa".toList])]).length ≤
          (searchWithPython (fun _ => []) ("aa".toList)
            ⟨true, false, none, some 1, 0⟩ [("a.md", some ["aaa".toList])]).length
        ∧ (searchWithPython (fun _ => []) ("aa".toList)
            ⟨true, false, none, some 1, 0⟩ [("a.md", some ["aaa".toList])]) <+:
            (searchWithPython (fun _ => []) ("aa".toList)
              ⟨true, false, none, none, 0⟩ [("a.md", some ["aaa".toList])])
        ∧ ∀ pr ∈ pyOpenedFiles
              (if false then (fun _ => []) else pyLiteralMatcher true ("aa".toList))
              (some 1) (visitOrder (filePatterns none) [("a.md", some ["aaa".toList])]) 0,
            pr.2 < 1) :=
  ⟨by decide,
    fallback_max_results_amended (fun _ => []) ("aa".toList) true false none 0
      [("a.md", some ["aaa".toList])] 1 (by decide)⟩

/-! ## Claim C2 -/

/-- C2 counterexample.  The claim says the two paths produce identical
`(path, line, start, end)` tuple sets.  In literal mode on the line `aaa`
with query `aa`, the fallback (advance `p + 1`) reports the
overlapping-adjacent match at offset 1, which the accelerated
non-overlapping matcher does not report. -/
theorem ripgrep_python_tuples_differ_counterexample :
    ("a.md", 1, 1, 3) ∈ (searchWithPython (fun _ => []) ("aa".toList)
        ⟨true, false, none, none, 0⟩ [("a.md", some ["aaa".toList])]).map toTuple
      ∧ ("a.md", 1, 1, 3) ∉ (rgSearchLiteral true ("aa".toList)
          [("a.md", some ["aaa".toList])]).map toTuple := by
  constructor
  · decide
  · decide

/-- C2 (amended): the tuple sets are not identical.  In literal mode, on a
corpus whose files all carry the default document extensions, every tuple of
the accelerated path is also produced by the fallback scanner (non-overlapping
matches are a subset of all occurrences); the converse fails because the
fallback additionally reports overlapping-adjacent occurrences. -/
theorem ripgrep_literal_subset_fallback
    (reEngine : List Char → List (Nat × Nat)) (cs : Bool) (q : List Char)
    (files : List PyFile) (hext : ∀ f ∈ files, hasDefaultExt f.1 = true)
    (t : String × Nat × Nat × Nat)
    (ht : t ∈ (rgSearchLiteral cs q files).map toTuple) :
    t ∈ (searchWithPython reEngine q ⟨cs, false, none, none, 0⟩ files).map
          toTuple := by
  have h1 : searchWithPython reEngine q ⟨cs, false, none, none, 0⟩ files =
      pyScanFiles (pyLiteralMatcher cs q) none
        (visitOrder (filePatterns none) files) 0 := rfl
  rw [h1, pyScanFiles_none_eq_allRecords]
  obtain ⟨r, hr, rfl⟩ := List.mem_map.mp ht
  apply List.mem_map.mpr
  refine ⟨r, ?_, rfl⟩
  unfold rgSearchLiteral at hr
  obtain ⟨f, hf, hrf⟩ := List.mem_flatMap.mp hr
  cases hc : f.2 with
  | none => rw [hc] at hrf; simp at hrf
  | some lines =>
    rw [hc] at hrf
    exact mem_allRecords_of_mem_file _
      (mem_visitOrder_of_defaultExt hf (hext f hf)) hc
      (fileRecords_mono (rgLiteralMatcher_subset cs q) f.1 lines r hrf)

/-- C2 witness: a concrete accelerated-path tuple reproduced by the
fallback scanner. -/
theorem ripgrep_literal_subset_fallback_witness :
    (∀ f ∈ ([("a.md", some ["foo".toList])] : List PyFile),
        hasDefaultExt f.1 = true)
      ∧ ("a.md", 1, 0, 3) ∈ (rgSearchLiteral true ("foo".toList)
          [("a.md", some ["foo".toList])]).map toTuple
      ∧ ("a.md", 1, 0, 3) ∈ (searchWithPython (fun _ => []) ("foo".toList)
          ⟨true, false, none, none, 0⟩ [("a.md", some ["foo".toList])]).map
            toTuple :=
  ⟨by decide, by decide,
    ripgrep_literal_subset_fallback (fun _ => []) true ("foo".toList)
      [("a.md", some ["foo".toList])] (by decide) ("a.md", 1, 0, 3) (by decide)⟩

/-! ## Claim C9 -/

/-- C9: a read error on a single file is caught and the file skipped — the
fallback search over any corpus equals the search over the corpus restricted
to its readable files, so every match of a readable file is still yielded and
unreadable files never abort the scan. -/
theorem fallback_skips_unreadable_files
    (reEngine : List Char → List (Nat × Nat)) (q : List Char)
    (options : SearchOptions) (files : List PyFile) :
    searchWithPython reEngine q options files =
      searchWithPython reEngine q options
        (files.filter (fun f => f.2.isSome)) := by
  have h := pyScanFiles_filter_readable
      (if options.use_regex then reEngine
        else pyLiteralMatcher options.case_sensitive q)
      options.max_results (visitOrder (filePatterns options.file_types) files) 0
  have h2 := visitOrder_filter (filePatterns options.file_types)
      (fun f => f.2.isSome) files
  show pyScanFiles
      (if options.use_regex then reEngine
        else pyLiteralMatcher options.case_sensitive q)
      options.max_results (visitOrder (filePatterns options.file_types) files)
      0 =
    pyScanFiles
      (if options.use_regex then reEngine
        else pyLiteralMatcher options.case_sensitive q)
      options.max_results
      (visitOrder (filePatterns options.file_types)
        (files.filter (fun f => f.2.isSome))) 0
  rw [h2]
  exact h

/-! ## Claim C6 -/

/-- C6: in literal mode the per-line matching of the fallback scanner
reports exactly one match per occurrence of the (case-normalised) query in
the (case-normalised) line — the list of all occurrence positions in
increasing order with no duplicates, since the scan restarts at `p + 1`
after a match at `p` — each with `match_end = p + len(query)`, so
overlapping-adjacent occurrences are all reported. -/
theorem literal_matcher_finds_all_occurrences (cs : Bool) (q line : List Char) :
    pyLiteralMatcher cs q line =
      ((List.range ((pyNormalize cs line).length + 1)).filter
          (occursAtB (pyNormalize cs q) (pyNormalize cs line))).map
        (fun p => (p, p + q.length))
      ∧ (pyLiteralMatcher cs q line).Pairwise (fun a b => a.1 < b.1) := by
  have heq : pyLiteralMatcher cs q line =
      (occList (pyNormalize cs q) (pyNormalize cs line)).map
        (fun p => (p, p + q.length)) := by
    unfold pyLiteralMatcher
    rw [pyLiteralPositions_eq_occList]
  constructor
  · exact heq
  · rw [heq]
    exact List.Pairwise.map _ (fun a b h => h)
      (occList_pairwise (pyNormalize cs q) (pyNormalize cs line))

/-! ## Chunking (semantic_search.py lines 153-174) -/

/-- Embeds Python `content.split(sep)` for a one-character separator: the
list of segments between separator occurrences (`"".split` yields `[""]`). -/
def splitOnChar (sep : Char) : List Char → List (List Char)
  | [] => [[]]
  | c :: rest =>
    match splitOnChar sep rest with
    | [] => [[]]
    | g :: gs => if c = sep then [] :: g :: gs else (c :: g) :: gs

/-- Sum of the line lengths of a chunk group — the quantity the accumulator
`current_size` of `_split_into_chunks` tracks (newline separators are not
counted). -/
def lineLenSum (g : List (List Char)) : Nat := (g.map List.length).sum

/-- Embeds the accumulation loop of `_split_into_chunks` (semantic_search.py
lines 161-172): each line either opens a new chunk (when it would overflow
`chunk_size` and the current chunk is nonempty) or is appended to the
current chunk; the trailing chunk is flushed at the end. -/
def splitChunksAux (chunk_size : Nat) :
    List (List Char) → List (List Char) → Nat → List (List (List Char))
  | [], cur, _ => if cur.isEmpty then [] else [cur]
  | line :: rest, cur, size =>
    if size + line.length > chunk_size ∧ cur ≠ [] then
      cur :: splitChunksAux chunk_size rest [line] line.length
    else
      splitChunksAux chunk_size rest (cur ++ [line]) (size + line.length)

/-- Embeds `_split_into_chunks` (semantic_search.py lines 153-174): split on
newlines, group greedily, join each group with newlines. -/
def splitIntoChunks (content : List Char) (chunk_size : Nat) :
    List (List Char) :=
  (splitChunksAux chunk_size (splitOnChar '\n' content) [] 0).map
    (List.intercalate ['\n'])

theorem splitChunksAux_join (chunk_size : Nat) :
    ∀ (lines cur : List (List Char)) (size : Nat),
      (splitChunksAux chunk_size lines cur size).flatten = cur ++ lines := by
  intro lines
  induction lines with
  | nil =>
    intro cur size
    by_cases hc : cur.isEmpty
    · simp [splitChunksAux, hc, List.isEmpty_iff.mp hc]
    · simp [splitChunksAux, hc]
  | cons line rest ih =>
    intro cur size
    by_cases hcond : size + line.length > chunk_size ∧ cur ≠ []
    · simp only [splitChunksAux, if_pos hcond, List.flatten_cons, ih]
      simp
    · simp only [splitChunksAux, if_neg hcond, ih]
      simp

theorem splitChunksAux_bound (chunk_size : Nat) :
    ∀ (lines cur : List (List Char)) (size : Nat),
      size = lineLenSum cur →
      (cur = [] ∨ lineLenSum cur ≤ chunk_size ∨ cur.length = 1) →
      ∀ g ∈ splitChunksAux chunk_size lines cur size,
        g ≠ [] ∧ (lineLenSum g ≤ chunk_size ∨ g.length = 1) := by
  intro lines
  induction lines with
  | nil =>
    intro cur size hsz hinv g hg
    by_cases hc : cur.isEmpty
    · simp [splitChunksAux, hc] at hg
    · simp only [splitChunksAux, if_neg hc, List.mem_singleton] at hg
      subst hg
      have hne : g ≠ [] := fun h => hc (by simp [h])
      exact ⟨hne, hinv.resolve_left hne⟩
  | cons line rest ih =>
    intro cur size hsz hinv g hg
    by_cases hcond : size + line.length > chunk_size ∧ cur ≠ []
    · simp only [splitChunksAux, if_pos hcond] at hg
      rcases List.mem_cons.mp hg with rfl | hmem
      · exact ⟨hcond.2, hinv.resolve_left hcond.2⟩
      · exact ih [line] line.length (by simp [lineLenSum]) (Or.inr (Or.inr rfl))
          g hmem
    · simp only [splitChunksAux, if_neg hcond] at hg
      refine ih (cur ++ [line]) (size + line.length) ?_ ?_ g hg
      · simp [lineLenSum, hsz]
      · by_cases hcur : cur = []
        · subst hcur
          exact Or.inr (Or.inr (by simp))
        · have hle : size + line.length ≤ chunk_size := by
            rcases Classical.em (size + line.length > chunk_size) with hgt | hngt
            · exact absurd ⟨hgt, hcur⟩ hcond
            · omega
          refine Or.inr (Or.inl ?_)
          have : lineLenSum (cur ++ [line]) = lineLenSum cur + line.length := by
            simp [lineLenSum]
          omega

theorem length_intercalate_nl :
    ∀ g : List (List Char),
      (List.intercalate ['\n'] g).length = lineLenSum g + (g.length - 1) := by
  intro g
  induction g with
  | nil => simp [List.intercalate, lineLenSum]
  | cons a t ih =>
    cases t with
    | nil => simp [List.intercalate, lineLenSum]
    | cons b t2 =>
      have hstep : List.intercalate ['\n'] (a :: b :: t2) =
          a ++ '\n' :: List.intercalate ['\n'] (b :: t2) := by
        simp [List.intercalate, List.intersperse]
      rw [hstep]
      simp only [List.length_append, List.length_cons, ih]
      simp only [lineLenSum, List.map_cons, List.sum_cons, List.length_cons]
      omega

/-! ## Claim C4 -/

/-- C4 counterexample.  The claim says every chunk is at most `chunk_size`
characters unless it is a single over-long line.  With `chunk_size = 4` and
content `ab\ncd`, the accumulator compares only the sum of line lengths
(2 + 2 = 4, not over the limit), yet the emitted chunk `ab\ncd` is 5
characters long because the joining newline is never counted — and it is not
a single line. -/
theorem chunk_exceeds_chunk_size_counterexample :
    ¬ ∀ chunk ∈ splitIntoChunks ("ab\ncd".toList) 4,
        chunk.length ≤ 4 ∨ '\n' ∉ chunk := by
  decide

/-- C4 (amended): chunks are built by greedy line accumulation and a line is
never split across chunks (the chunk groups concatenate back to the exact
line list); each chunk group is nonempty and either its sum of line lengths
is at most `chunk_size` or it is a single (possibly over-long) line; the
character length of an emitted chunk is that sum plus one per joining
newline — so a multi-line chunk may exceed `chunk_size` by up to the number
of newlines in it. -/
theorem split_into_chunks_greedy (content : List Char) (chunk_size : Nat) :
    (splitChunksAux chunk_size (splitOnChar '\n' content) [] 0).flatten =
        splitOnChar '\n' content
      ∧ splitIntoChunks content chunk_size =
          (splitChunksAux chunk_size (splitOnChar '\n' content) [] 0).map
            (List.intercalate ['\n'])
      ∧ ∀ g ∈ splitChunksAux chunk_size (splitOnChar '\n' content) [] 0,
          g ≠ []
            ∧ (lineLenSum g ≤ chunk_size ∨ g.length = 1)
            ∧ (List.intercalate ['\n'] g).length =
                lineLenSum g + (g.length - 1) := by
  refine ⟨by simpa using splitChunksAux_join chunk_size (splitOnChar '\n' content) [] 0,
    rfl, ?_⟩
  intro g hg
  have hb := splitChunksAux_bound chunk_size (splitOnChar '\n' content) [] 0
    (by simp [lineLenSum]) (Or.inl rfl) g hg
  exact ⟨hb.1, hb.2, length_intercalate_nl g⟩

/-- C4 witness: the amended bound at a concrete two-line content. -/
theorem split_into_chunks_greedy_witness :
    (["ab".toList, "cd".toList] ∈
        splitChunksAux 10 (splitOnChar '\n' ("ab\ncd".toList)) [] 0)
      ∧ (["ab".toList, "cd".toList] ≠ ([] : List (List Char))
          ∧ (lineLenSum ["ab".toList, "cd".toList] ≤ 10
              ∨ (["ab".toList, "cd".toList] : List (List Char)).length = 1)
          ∧ (List.intercalate ['\n'] ["ab".toList, "cd".toList]).length =
              lineLenSum ["ab".toList, "cd".toList]
                + ((["ab".toList, "cd".toList] : List (List Char)).length - 1)) :=
  ⟨by decide,
    (split_into_chunks_greedy ("ab\ncd".toList) 10).2.2 _ (by decide)⟩

/-! ## Stable descending sort

Python `list.sort(key=..., reverse=True)` is stable: elements comparing
equal keep their original relative order, also with `reverse=True`.  A
stable sort is uniquely determined by the comparator and stability, so the
insertion sort below is a faithful embedding of the sorting steps in
`perform_search` and `SemanticSearchEngine.search`. -/

/-- Stable descending insertion: `a` is placed before the first element
whose key is not greater than its own. -/
def insertDescBy {α β : Type} [LinearOrder β] (key : α → β) (a : α) :
    List α → List α
  | [] => [a]
  | x :: xs => if key a < key x then x :: insertDescBy key a xs else a :: x :: xs

/-- Stable descending sort by a key, embedding Python
`sort(key=..., reverse=True)`. -/
def sortDescBy {α β : Type} [LinearOrder β] (key : α → β) : List α → List α
  | [] => []
  | x :: xs => insertDescBy key x (sortDescBy key xs)

theorem mem_insertDescBy {α β : Type} [LinearOrder β] (key : α → β)
    (a b : α) : ∀ l : List α, b ∈ insertDescBy key a l ↔ b = a ∨ b ∈ l := by
  intro l
  induction l with
  | nil => simp [insertDescBy]
  | cons x xs ih =>
    simp only [insertDescBy]
    by_cases h : key a < key x
    · rw [if_pos h]
      simp only [List.mem_cons, ih]
      tauto
    · rw [if_neg h]
      simp only [List.mem_cons]

theorem insertDescBy_perm {α β : Type} [LinearOrder β] (key : α → β)
    (a : α) : ∀ l : List α, (insertDescBy key a l).Perm (a :: l) := by
  intro l
  induction l with
  | nil => simp [insertDescBy]
  | cons x xs ih =>
    simp only [insertDescBy]
    by_cases h : key a < key x
    · rw [if_pos h]
      exact (ih.cons x).trans (List.Perm.swap a x xs)
    · rw [if_neg h]

theorem sortDescBy_perm {α β : Type} [LinearOrder β] (key : α → β) :
    ∀ l : List α, (sortDescBy key l).Perm l := by
  intro l
  induction l with
  | nil => simp [sortDescBy]
  | cons x xs ih =>
    exact ((insertDescBy_perm key x (sortDescBy key xs)).trans (ih.cons x))

theorem insertDescBy_pairwise {α β : Type} [LinearOrder β] (key : α → β)
    (a : α) : ∀ l : List α,
      l.Pairwise (fun x y => key y ≤ key x) →
      (insertDescBy key a l).Pairwise (fun x y => key y ≤ key x) := by
  intro l
  induction l with
  | nil => intro _; simp [insertDescBy]
  | cons x xs ih =>
    intro h
    have hx : ∀ y ∈ xs, key y ≤ key x := (List.pairwise_cons.mp h).1
    have hxs := (List.pairwise_cons.mp h).2
    simp only [insertDescBy]
    by_cases hlt : key a < key x
    · rw [if_pos hlt]
      apply List.pairwise_cons.mpr
      refine ⟨?_, ih hxs⟩
      intro y hy
      rcases (mem_insertDescBy key a y xs).mp hy with rfl | hmem
      · exact le_of_lt hlt
      · exact hx y hmem
    · rw [if_neg hlt]
      apply List.pairwise_cons.mpr
      refine ⟨?_, h⟩
      intro y hy
      rcases List.mem_cons.mp hy with rfl | hmem
      · exact le_of_not_lt hlt
      · exact le_trans (hx y hmem) (le_of_not_lt hlt)

theorem sortDescBy_pairwise {α β : Type} [LinearOrder β] (key : α → β) :
    ∀ l : List α,
      (sortDescBy key l).Pairwise (fun x y => key y ≤ key x) := by
  intro l
  induction l with
  | nil => simp [sortDescBy]
  | cons x xs ih => exact insertDescBy_pairwise key x _ ih

theorem filter_insertDescBy {α β : Type} [LinearOrder β] (key : α → β)
    (a : α) (s : β) : ∀ l : List α,
      (insertDescBy key a l).filter (fun x => decide (key x = s)) =
        if key a = s then
          a :: l.filter (fun x => decide (key x = s))
        else l.filter (fun x => decide (key x = s)) := by
  intro l
  induction l with
  | nil =>
    simp only [insertDescBy, List.filter_cons, List.filter_nil]
    by_cases h : key a = s
    · rw [if_pos (decide_eq_true h), if_pos h]
    · rw [if_neg (by simpa using h), if_neg h]
  | cons x xs ih =>
    simp only [insertDescBy]
    by_cases hlt : key a < key x
    · rw [if_pos hlt]
      by_cases hxs : key x = s
      · have has : ¬ key a = s := fun h =>
          absurd hlt (by rw [h, hxs]; exact lt_irrefl s)
        simp [List.filter_cons, hxs, has, ih]
      · by_cases has : key a = s
        · simp [List.filter_cons, hxs, has, ih]
        · simp [List.filter_cons, hxs, has, ih]
    · rw [if_neg hlt]
      by_cases has : key a = s
      · simp [List.filter_cons, has]
      · simp [List.filter_cons, has]

theorem filter_sortDescBy {α β : Type} [LinearOrder β] (key : α → β)
    (s : β) : ∀ l : List α,
      (sortDescBy key l).filter (fun x => decide (key x = s)) =
        l.filter (fun x => decide (key x = s)) := by
  intro l
  induction l with
  | nil => simp [sortDescBy]
  | cons x xs ih =>
    simp only [sortDescBy]
    rw [filter_insertDescBy, List.filter_cons]
    by_cases h : key x = s
    · rw [if_pos h, if_pos (decide_eq_true h), ih]
    · rw [if_neg h, if_neg (by simpa using h), ih]

/-! ## Orchestrator (search_integration.py) -/

/-- Embeds the UI result payload (tui_main.py lines 45-53). -/
structure UISearchResult where
  file_path : String
  line_number : Nat
  content : String
  score : Int
deriving DecidableEq

/-- Embeds the Python substring operator `needle in hay`. -/
def substringOf (needle hay : List Char) : Bool :=
  hay.tails.any (fun t => needle.isPrefixOf t)

/-- Embeds `_calculate_score` (search_integration.py lines 93-110): verbatim
case-insensitive containment scores 5 for a readme path, 4 for documentation
extensions, 3 otherwise; anything else scores 2. -/
def calculate_score (r : SearchResult) (q : List Char) : Int :=
  if substringOf (lowerChars q) (lowerChars r.line_content) then
    if substringOf ("readme".toList) (lowerChars r.file_path.toList) then 5
    else if [".md", ".rst", ".txt"].any
        (fun e => substringOf e.toList r.file_path.toList) then 4
    else 3
  else 2

/-- Embeds the lexical-to-UI conversion of `perform_search` (lines 56-67). -/
def toUIResult (q : List Char) (r : SearchResult) : UISearchResult :=
  ⟨r.file_path, r.line_number, String.mk r.line_content, calculate_score r q⟩

/-- Embeds the merge phase of `perform_search` (search_integration.py lines
25-77): an empty query short-circuits to `[]`; otherwise the scored lexical
results, followed by the semantic results when semantic search is enabled
and available, are sorted by descending score with the stable list sort. -/
def perform_search (q : List Char) (lexResults : List SearchResult)
    (semanticOn : Bool) (semResults : List UISearchResult) :
    List UISearchResult :=
  if q = [] then []
  else
    sortDescBy (fun r => r.score)
      (lexResults.map (toUIResult q) ++ (if semanticOn then semResults else []))

/-! ## Claim C7 -/

/-- C7: `perform_search` sorts the merged lexical-plus-semantic list in
descending score order, and for every score the results carrying that score
appear in exactly their arrival order — all lexical results of that score
(in lexical arrival order) before all semantic results of that score (in
semantic arrival order) — because the Python list sort is stable and the
semantic list is appended after the lexical list. -/
theorem perform_search_sort_stable (q : List Char) (hq : q ≠ [])
    (lex : List SearchResult) (sem : List UISearchResult) :
    (perform_search q lex true sem).Pairwise (fun a b => b.score ≤ a.score)
      ∧ (perform_search q lex true sem).Perm
          (lex.map (toUIResult q) ++ sem)
      ∧ ∀ s : Int,
          (perform_search q lex true sem).filter
              (fun r => decide (r.score = s)) =
            (lex.map (toUIResult q)).filter (fun r => decide (r.score = s)) ++
              sem.filter (fun r => decide (r.score = s)) := by
  have hps : perform_search q lex true sem =
      sortDescBy (fun r => r.score) (lex.map (toUIResult q) ++ sem) := by
    unfold perform_search
    rw [if_neg hq]
    rfl
  rw [hps]
  refine ⟨sortDescBy_pairwise _ _, sortDescBy_perm _ _, ?_⟩
  intro s
  rw [filter_sortDescBy, List.filter_append]

/-- C7 witness: the sort contract at a concrete merged list with a score
tie between a lexical and a semantic result. -/
theorem perform_search_sort_stable_witness :
    ("a".toList ≠ ([] : List Char))
      ∧ ((perform_search ("a".toList)
            [⟨"x.py", 1, "a".toList, 0, 1⟩] true
            [⟨"s.md", 0, "sem", 3⟩]).Pairwise (fun a b => b.score ≤ a.score)
        ∧ ((perform_search ("a".toList)
            [⟨"x.py", 1, "a".toList, 0, 1⟩] true
            [⟨"s.md", 0, "sem", 3⟩]).filter (fun r => decide (r.score = 3)) =
          ([⟨"x.py", 1, "a".toList, 0, 1⟩].map (toUIResult ("a".toList))).filter
              (fun r => decide (r.score = 3)) ++
            [(⟨"s.md", 0, "sem", 3⟩ : UISearchResult)].filter
              (fun r => decide (r.score = 3)))) :=
  ⟨by decide,
    (perform_search_sort_stable ("a".toList) (by decide)
        [⟨"x.py", 1, "a".toList, 0, 1⟩] [⟨"s.md", 0, "sem", 3⟩]).1,
    (perform_search_sort_stable ("a".toList) (by decide)
        [⟨"x.py", 1, "a".toList, 0, 1⟩] [⟨"s.md", 0, "sem", 3⟩]).2.2 3⟩

/-! ## Semantic engine state (semantic_search.py)

The embedding models (sentence-transformers / OpenAI) and the md5 digest
live outside this repository; the model is abstracted as a function
parameter `embed` and the digest as `hashf`.  What matters for the claims is
only that both are functions of their input. -/

/-- Embeds the mutable state of `SemanticSearchEngine`: the in-memory
`_embeddings_cache` dict and the on-disk pickle cache directory, both as
insertion-ordered association lists keyed by the cache-key string. -/
structure SemState (V : Type) where
  embeddingsCache : List (String × V)
  diskCache : List (String × V)

/-- Association-list lookup (first binding wins), embedding both the dict
access and `_load_cached_embedding` file lookup. -/
def alistFind {V : Type} (k : String) : List (String × V) → Option V
  | [] => none
  | kv :: rest => if kv.1 = k then some kv.2 else alistFind k rest

/-- Association-list update: replace in place or append, embedding dict
assignment and `_save_cached_embedding` file writes. -/
def alistInsert {V : Type} (k : String) (v : V) :
    List (String × V) → List (String × V)
  | [] => [(k, v)]
  | kv :: rest => if kv.1 = k then (k, v) :: rest else kv :: alistInsert k v rest

theorem alistFind_insert_self {V : Type} (k : String) (v : V) :
    ∀ l : List (String × V), alistFind k (alistInsert k v l) = some v := by
  intro l
  induction l with
  | nil => simp [alistInsert, alistFind]
  | cons kv rest ih =>
    simp only [alistInsert]
    by_cases h : kv.1 = k
    · rw [if_pos h]
      simp [alistFind]
    · rw [if_neg h]
      simp only [alistFind, if_neg h, ih]

theorem alistFind_insert_of_ne {V : Type} {k k2 : String} (v : V)
    (hne : k2 ≠ k) :
    ∀ l : List (String × V), alistFind k (alistInsert k2 v l) = alistFind k l := by
  intro l
  induction l with
  | nil =>
    show alistFind k [(k2, v)] = none
    show (if k2 = k then some v else alistFind k []) = none
    rw [if_neg hne]
    rfl
  | cons kv rest ih =>
    obtain ⟨k1, v1⟩ := kv
    show alistFind k
        (if k1 = k2 then (k2, v) :: rest else (k1, v1) :: alistInsert k2 v rest) =
      alistFind k ((k1, v1) :: rest)
    by_cases h1 : k1 = k2
    · rw [if_pos h1]
      show (if k2 = k then some v else alistFind k rest) =
        (if k1 = k then some v1 else alistFind k rest)
      rw [if_neg hne, if_neg (fun hh => hne (h1.symm.trans hh))]
    · rw [if_neg h1]
      show (if k1 = k then some v1 else alistFind k (alistInsert k2 v rest)) =
        (if k1 = k then some v1 else alistFind k rest)
      by_cases h2 : k1 = k
      · rw [if_pos h2, if_pos h2]
      · rw [if_neg h2, if_neg h2, ih]

theorem isSome_alistFind_insert {V : Type} (k k2 : String) (v : V)
    (l : List (String × V)) (h : (alistFind k l).isSome = true) :
    (alistFind k (alistInsert k2 v l)).isSome = true := by
  by_cases hk : k2 = k
  · subst hk
    rw [alistFind_insert_self]
    rfl
  · rw [alistFind_insert_of_ne v hk]
    exact h

/-- Embeds `_get_cache_key` (semantic_search.py lines 187-190), with the md5
digest abstracted as `hashf`. -/
def getCacheKey (hashf : List Char → String) (file_path : String)
    (chunk_index : Nat) (content : List Char) : String :=
  file_path ++ ":" ++ toString chunk_index ++ ":" ++ hashf content

/-- The cache key of one (path, chunk index, chunk) index item. -/
def keyOfItem (hashf : List Char → String)
    (it : String × Nat × List Char) : String :=
  getCacheKey hashf it.1 it.2.1 it.2.2

/-- One iteration of the chunk loop of `build_index` (semantic_search.py
lines 92-103): a disk-cache hit is copied into memory; a miss generates one
embedding (counted) and persists it. -/
def buildIndexStep {V : Type} (embed : List Char → V)
    (hashf : List Char → String) (st : SemState V)
    (item : String × Nat × List Char) : SemState V × Nat :=
  match alistFind (keyOfItem hashf item) st.diskCache with
  | some e =>
    ({ st with
        embeddingsCache :=
          alistInsert (keyOfItem hashf item) e st.embeddingsCache }, 0)
  | none =>
    ({ embeddingsCache :=
         alistInsert (keyOfItem hashf item) (embed item.2.2)
           st.embeddingsCache,
       diskCache :=
         alistInsert (keyOfItem hashf item) (embed item.2.2) st.diskCache },
      1)

/-- The (path, chunk index, chunk) items `build_index` iterates over, in
document order then chunk order, with the default `chunk_size = 500`. -/
def indexItems (docs : List (String × List Char)) :
    List (String × Nat × List Char) :=
  docs.flatMap (fun d =>
    ((splitIntoChunks d.2 500).enum).map (fun ic => (d.1, ic.1, ic.2)))

/-- Folds the chunk loop over all items, threading the state and summing the
number of embedding computations. -/
def buildIndexAux {V : Type} (embed : List Char → V)
    (hashf : List Char → String) :
    SemState V → List (String × Nat × List Char) → SemState V × Nat
  | st, [] => (st, 0)
  | st, it :: rest =>
    let sn := buildIndexStep embed hashf st it
    let rm := buildIndexAux embed hashf sn.1 rest
    (rm.1, sn.2 + rm.2)

/-- Embeds `build_index` (semantic_search.py lines 78-103), returning the
new state and the number of embedding computations performed. -/
def build_index {V : Type} (embed : List Char → V)
    (hashf : List Char → String) (docs : List (String × List Char))
    (st : SemState V) : SemState V × Nat :=
  buildIndexAux embed hashf st (indexItems docs)

theorem buildIndexStep_disk_mono {V : Type} (embed : List Char → V)
    (hashf : List Char → String) (st : SemState V)
    (it : String × Nat × List Char) (k : String)
    (h : (alistFind k st.diskCache).isSome = true) :
    (alistFind k (buildIndexStep embed hashf st it).1.diskCache).isSome =
      true := by
  cases hd : alistFind (keyOfItem hashf it) st.diskCache with
  | some e =>
    have hs : buildIndexStep embed hashf st it =
        ({ st with
            embeddingsCache :=
              alistInsert (keyOfItem hashf it) e st.embeddingsCache }, 0) := by
      unfold buildIndexStep
      rw [hd]
    rw [hs]
    exact h
  | none =>
    have hs : buildIndexStep embed hashf st it =
        ({ embeddingsCache :=
             alistInsert (keyOfItem hashf it) (embed it.2.2)
               st.embeddingsCache,
           diskCache :=
             alistInsert (keyOfItem hashf it) (embed it.2.2) st.diskCache },
          1) := by
      unfold buildIndexStep
      rw [hd]
    rw [hs]
    exact isSome_alistFind_insert k _ _ st.diskCache h

theorem buildIndexStep_key_present {V : Type} (embed : List Char → V)
    (hashf : List Char → String) (st : SemState V)
    (it : String × Nat × List Char) :
    (alistFind (keyOfItem hashf it)
        (buildIndexStep embed hashf st it).1.diskCache).isSome = true := by
  cases hd : alistFind (keyOfItem hashf it) st.diskCache with
  | some e =>
    have hs : buildIndexStep embed hashf st it =
        ({ st with
            embeddingsCache :=
              alistInsert (keyOfItem hashf it) e st.embeddingsCache }, 0) := by
      unfold buildIndexStep
      rw [hd]
    rw [hs]
    rw [hd]
    rfl
  | none =>
    have hs : buildIndexStep embed hashf st it =
        ({ embeddingsCache :=
             alistInsert (keyOfItem hashf it) (embed it.2.2)
               st.embeddingsCache,
           diskCache :=
             alistInsert (keyOfItem hashf it) (embed it.2.2) st.diskCache },
          1) := by
      unfold buildIndexStep
      rw [hd]
    rw [hs]
    rw [alistFind_insert_self]
    rfl

theorem buildIndexAux_disk_mono {V : Type} (embed : List Char → V)
    (hashf : List Char → String) :
    ∀ (items : List (String × Nat × List Char)) (st : SemState V)
      (k : String),
      (alistFind k st.diskCache).isSome = true →
      (alistFind k
          (buildIndexAux embed hashf st items).1.diskCache).isSome = true := by
  intro items
  induction items with
  | nil => intro st k h; exact h
  | cons it rest ih =>
    intro st k h
    exact ih _ k (buildIndexStep_disk_mono embed hashf st it k h)

theorem buildIndexAux_keys_present {V : Type} (embed : List Char → V)
    (hashf : List Char → String) :
    ∀ (items : List (String × Nat × List Char)) (st : SemState V),
      ∀ it ∈ items,
        (alistFind (keyOfItem hashf it)
            (buildIndexAux embed hashf st items).1.diskCache).isSome = true := by
  intro items
  induction items with
  | nil => intro st it hit; simp at hit
  | cons jt rest ih =>
    intro st it hit
    rcases List.mem_cons.mp hit with rfl | hmem
    · exact buildIndexAux_disk_mono embed hashf rest _ _
        (buildIndexStep_key_present embed hashf st it)
    · exact ih _ it hmem

theorem buildIndexAux_zero_embeds {V : Type} (embed : List Char → V)
    (hashf : List Char → String) :
    ∀ (items : List (String × Nat × List Char)) (st : SemState V),
      (∀ it ∈ items,
          (alistFind (keyOfItem hashf it) st.diskCache).isSome = true) →
      (buildIndexAux embed hashf st items).2 = 0 := by
  intro items
  induction items with
  | nil => intro st _; rfl
  | cons it rest ih =>
    intro st hall
    have hit := hall it (List.mem_cons_self _ _)
    cases hd : alistFind (keyOfItem hashf it) st.diskCache with
    | none => rw [hd] at hit; simp at hit
    | some e =>
      have hstep : buildIndexStep embed hashf st it =
          ({ st with embeddingsCache :=
              alistInsert (keyOfItem hashf it) e st.embeddingsCache }, 0) := by
        unfold buildIndexStep
        rw [hd]
      show (buildIndexStep embed hashf st it).2 +
          (buildIndexAux embed hashf (buildIndexStep embed hashf st it).1
            rest).2 = 0
      rw [hstep]
      simp only [Nat.zero_add]
      apply ih
      intro jt hjt
      exact hall jt (List.mem_cons_of_mem _ hjt)

/-! ## Claim C5 -/

/-- C5: chunking and cache-key derivation are deterministic (identical
content and chunk size give identical chunk lists and identical keys), and
`build_index` is idempotent: immediately re-running it on the same documents
— the first run having persisted every entry — performs zero new embedding
computations, because every chunk key hits the persisted cache. -/
theorem build_index_idempotent {V : Type} (embed : List Char → V)
    (hashf : List Char → String) (docs : List (String × List Char))
    (st : SemState V) :
    (∀ c c' : List Char, ∀ n : Nat, c = c' →
        splitIntoChunks c n = splitIntoChunks c' n)
      ∧ (∀ p : String, ∀ i : Nat, ∀ c c' : List Char, c = c' →
          getCacheKey hashf p i c = getCacheKey hashf p i c')
      ∧ (build_index embed hashf docs
          (build_index embed hashf docs st).1).2 = 0 := by
  refine ⟨fun c c' n h => by rw [h], fun p i c c' h => by rw [h], ?_⟩
  apply buildIndexAux_zero_embeds
  intro it hit
  exact buildIndexAux_keys_present embed hashf (indexItems docs) st it hit

/-- C5 witness: idempotence at a concrete document set, starting from the
empty state. -/
theorem build_index_idempotent_witness :
    (("hello".toList : List Char) = "hello".toList
      ∧ splitIntoChunks ("hello".toList) 500 =
          splitIntoChunks ("hello".toList) 500)
      ∧ getCacheKey (fun _ => "h") "a.md" 0 ("hello".toList) =
          getCacheKey (fun _ => "h") "a.md" 0 ("hello".toList)
      ∧ (build_index (fun _ => (0 : Nat)) (fun _ => "h")
          [("a.md", "hello".toList)]
          (build_index (fun _ => (0 : Nat)) (fun _ => "h")
            [("a.md", "hello".toList)] ⟨[], []⟩).1).2 = 0 :=
  ⟨⟨rfl, (build_index_idempotent (fun _ => (0 : Nat)) (fun _ => "h")
      [("a.md", "hello".toList)] ⟨[], []⟩).1 _ _ 500 rfl⟩,
    (build_index_idempotent (fun _ => (0 : Nat)) (fun _ => "h")
      [("a.md", "hello".toList)] ⟨[], []⟩).2.1 "a.md" 0 _ _ rfl,
    (build_index_idempotent (fun _ => (0 : Nat)) (fun _ => "h")
      [("a.md", "hello".toList)] ⟨[], []⟩).2.2⟩

/-! ## Semantic search (semantic_search.py lines 105-151) -/

/-- Embeds Python `int(s)` on a decimal-digit string, for
`int(parts[1])` in `_parse_cache_key`. -/
def natOfDigits (s : List Char) : Nat :=
  s.foldl (fun n c => n * 10 + (c.toNat - 48)) 0

/-- Embeds `_parse_cache_key` (semantic_search.py lines 192-199): split the
key on colons, read the path and chunk index back, and substitute the
placeholder content string (the design notes flag that the original chunk
text cannot be recovered from the key). -/
def parse_cache_key (cache_key : String) : String × Nat × String :=
  let parts := splitOnChar ':' cache_key.toList
  let fp := String.mk (parts.headD [])
  let ci := natOfDigits ((parts.drop 1).headD [])
  (fp, ci, "[Chunk " ++ toString ci ++ " from " ++ fp ++ "]")

/-- Embeds the `SemanticSearchResult` dataclass (semantic_search.py lines
15-21); similarity scores are embedded as rationals. -/
structure SemanticSearchResult where
  file_path : String
  content : String
  similarity_score : ℚ
  chunk_index : Nat
deriving DecidableEq

/-- The thresholded similarity pairs computed against every cached vector
(semantic_search.py lines 130-134), in cache iteration order. -/
def simPairs {V : Type} (simf : V → V → ℚ) (qe : V) (threshold : ℚ)
    (cache : List (String × V)) : List (String × ℚ) :=
  cache.filterMap (fun kv =>
    if threshold ≤ simf qe kv.2 then some (kv.1, simf qe kv.2) else none)

/-- Embeds `SemanticSearchEngine.search` (semantic_search.py lines 105-151):
an empty in-memory cache short-circuits to no results; otherwise the query
is embedded (the second component counts these backend invocations), every
cached vector is scored, results at or above the threshold are sorted by
descending similarity with the stable list sort, truncated to `top_k`, and
rebuilt through `_parse_cache_key`. -/
def semantic_search {V : Type} (embed : List Char → V) (simf : V → V → ℚ)
    (st : SemState V) (query : List Char) (top_k : Nat)
    (similarity_threshold : ℚ) : List SemanticSearchResult × Nat :=
  if st.embeddingsCache.isEmpty then ([], 0)
  else
    (((sortDescBy (fun x => x.2)
          (simPairs simf (embed query) similarity_threshold
            st.embeddingsCache)).take top_k).map
        (fun ks =>
          ⟨(parse_cache_key ks.1).1, (parse_cache_key ks.1).2.2, ks.2,
            (parse_cache_key ks.1).2.1⟩), 1)

theorem semantic_search_empty_eq {V : Type} (embed : List Char → V)
    (simf : V → V → ℚ) (st : SemState V) (query : List Char) (top_k : Nat)
    (threshold : ℚ) (h : st.embeddingsCache = []) :
    semantic_search embed simf st query top_k threshold = ([], 0) := by
  unfold semantic_search
  rw [if_pos (by rw [h]; rfl)]

/-- Embeds Python `int()` truncation toward zero on a rational value. -/
def pyInt (x : ℚ) : Int := if 0 ≤ x then ⌊x⌋ else ⌈x⌉

/-- Embeds the conversion of one semantic result to a UI result
(search_integration.py lines 138-145): `line_number = 0`, the prefixed
truncated content, and `int(similarity_score * 5)` as score. -/
def convertSemanticResult (r : SemanticSearchResult) : UISearchResult :=
  ⟨r.file_path, 0,
    "[Semantic] " ++ String.mk (r.content.toList.take 100) ++ "...",
    pyInt (r.similarity_score * 5)⟩

/-- Embeds `_perform_semantic_search` (search_integration.py lines 126-147):
`search(query, top_k=5)` with the default `similarity_threshold = 0.5`,
results converted for the UI. -/
def perform_semantic_search {V : Type} (embed : List Char → V)
    (simf : V → V → ℚ) (st : SemState V) (query : List Char) :
    List UISearchResult × Nat :=
  ((semantic_search embed simf st query 5 (1/2)).1.map convertSemanticResult,
    (semantic_search embed simf st query 5 (1/2)).2)

/-- Modelled from the spec: the claimed score conversion — `round(s * 5)`
clamped to at least 1. -/
def specSemanticScore (s : ℚ) : Int := max 1 (round (s * 5))

/-! ## Claim C10 -/

/-- C10: when the in-memory embeddings cache is empty (`build_index` never
ran), `SemanticSearchEngine.search` returns the empty list for every query,
`top_k` and threshold, performing zero embedding-backend invocations (the
guard returns before the query is embedded), hence also raising nothing. -/
theorem semantic_search_empty_index {V : Type} (embed : List Char → V)
    (simf : V → V → ℚ) (st : SemState V) (query : List Char) (top_k : Nat)
    (threshold : ℚ) (h : st.embeddingsCache = []) :
    semantic_search embed simf st query top_k threshold = ([], 0) :=
  semantic_search_empty_eq embed simf st query top_k threshold h

/-- C10 witness: the empty-index guard at a concrete state. -/
theorem semantic_search_empty_index_witness :
    (SemState.embeddingsCache (V := ℚ) ⟨[], []⟩ = [])
      ∧ semantic_search (fun _ => (0 : ℚ)) (fun _ _ => 0) ⟨[], []⟩
          ("q".toList) 10 (1/2) = ([], 0) :=
  ⟨rfl, semantic_search_empty_index (fun _ => (0 : ℚ)) (fun _ _ => 0)
    ⟨[], []⟩ ("q".toList) 10 (1/2) rfl⟩

/-! ## Claim C3 -/

/-- C3 counterexample.  The claim says the score of a semantic result with
similarity `s` is `round(s * 5)` clamped to at least 1.  The code computes
`int(s * 5)`, which truncates: at `s = 0.7` the code assigns 3 while the
claimed formula gives 4. -/
theorem semantic_score_not_round_counterexample :
    (convertSemanticResult ⟨"a.md", "c", 7/10, 0⟩).score = 3
      ∧ specSemanticScore (7/10) = 4
      ∧ (convertSemanticResult ⟨"a.md", "c", 7/10, 0⟩).score ≠
          specSemanticScore (7/10) := by
  have h1 : (convertSemanticResult ⟨"a.md", "c", 7/10, 0⟩).score = 3 := by
    show pyInt ((7/10 : ℚ) * 5) = 3
    unfold pyInt
    rw [if_pos (by norm_num)]
    norm_num [Int.floor_eq_iff]
  have h2 : specSemanticScore (7/10) = 4 := by
    unfold specSemanticScore
    rw [round_eq]
    rw [show ((7/10 : ℚ) * 5 + 1/2) = ((4 : ℤ) : ℚ) by push_cast; norm_num]
    rw [Int.floor_intCast]
    decide
  exact ⟨h1, h2, by rw [h1, h2]; decide⟩

theorem pyInt_mul_five_bounds {s : ℚ} (h1 : 1/2 ≤ s) (h2 : s ≤ 1) :
    2 ≤ pyInt (s * 5) ∧ pyInt (s * 5) ≤ 5 := by
  have h0 : (0 : ℚ) ≤ s * 5 := by linarith
  unfold pyInt
  rw [if_pos h0]
  constructor
  · exact Int.le_floor.mpr (by push_cast; linarith)
  · have h5 : s * 5 ≤ (5 : ℚ) := by linarith
    exact le_trans (Int.floor_le_floor h5) (by norm_num)

/-- C3 (amended): when semantic search runs, `perform_search` obtains at
most 5 semantic results, each tagged `line_number = 0`; the score assigned
to a result with similarity `s` is `int(s * 5)` — truncation toward zero,
not `round`, with no clamping; every returned similarity is at least the
default threshold `0.5`, so for similarities in `[0.5, 1]` the score lies in
`[2, 5]`. -/
theorem semantic_results_capped_and_truncated {V : Type}
    (embed : List Char → V) (simf : V → V → ℚ) (st : SemState V)
    (query : List Char) :
    (perform_semantic_search embed simf st query).1.length ≤ 5
      ∧ (∀ r ∈ (perform_semantic_search embed simf st query).1,
          r.line_number = 0)
      ∧ (∀ sr ∈ (semantic_search embed simf st query 5 (1/2)).1,
          (convertSemanticResult sr).score = pyInt (sr.similarity_score * 5)
            ∧ (1/2 : ℚ) ≤ sr.similarity_score
            ∧ (sr.similarity_score ≤ 1 →
                2 ≤ (convertSemanticResult sr).score
                  ∧ (convertSemanticResult sr).score ≤ 5)) := by
  have hmem : ∀ sr ∈ (semantic_search embed simf st query 5 (1/2)).1,
      (1/2 : ℚ) ≤ sr.similarity_score := by
    intro sr hsr
    by_cases hc : st.embeddingsCache = []
    · rw [semantic_search_empty_eq embed simf st query 5 (1/2) hc] at hsr
      simp at hsr
    · have hss : (semantic_search embed simf st query 5 (1/2)).1 =
          ((sortDescBy (fun x => x.2)
              (simPairs simf (embed query) (1/2) st.embeddingsCache)).take
            5).map
            (fun ks =>
              ⟨(parse_cache_key ks.1).1, (parse_cache_key ks.1).2.2, ks.2,
                (parse_cache_key ks.1).2.1⟩) := by
        unfold semantic_search
        rw [if_neg (by simpa using hc)]
      rw [hss] at hsr
      obtain ⟨ks, hks, rfl⟩ := List.mem_map.mp hsr
      have hks2 : ks ∈ sortDescBy (fun x => x.2)
          (simPairs simf (embed query) (1/2) st.embeddingsCache) :=
        List.mem_of_mem_take hks
      have hks3 : ks ∈ simPairs simf (embed query) (1/2) st.embeddingsCache :=
        (sortDescBy_perm (fun x => x.2) _).mem_iff.mp hks2
      obtain ⟨kv, _, hkv⟩ := List.mem_filterMap.mp hks3
      by_cases hth : (1/2 : ℚ) ≤ simf (embed query) kv.2
      · rw [if_pos hth] at hkv
        cases hkv
        exact hth
      · rw [if_neg hth] at hkv
        cases hkv
  refine ⟨?_, ?_, ?_⟩
  · by_cases hc : st.embeddingsCache = []
    · unfold perform_semantic_search
      rw [semantic_search_empty_eq embed simf st query 5 (1/2) hc]
      simp
    · unfold perform_semantic_search
      have hss : semantic_search embed simf st query 5 (1/2) =
          (((sortDescBy (fun x => x.2)
              (simPairs simf (embed query) (1/2) st.embeddingsCache)).take
            5).map
            (fun ks =>
              ⟨(parse_cache_key ks.1).1, (parse_cache_key ks.1).2.2, ks.2,
                (parse_cache_key ks.1).2.1⟩), 1) := by
        unfold semantic_search
        rw [if_neg (by simpa using hc)]
      rw [hss]
      simp only [List.length_map]
      exact le_trans (List.length_take_le _ _) (le_refl 5)
  · intro r hr
    unfold perform_semantic_search at hr
    obtain ⟨sr, _, rfl⟩ := List.mem_map.mp hr
    rfl
  · intro sr hsr
    refine ⟨rfl, hmem sr hsr, fun hle => ?_⟩
    have := pyInt_mul_five_bounds (hmem sr hsr) hle
    exact this

/-- C3 witness: the amended contract at a one-entry index whose similarity
is 0.7. -/
theorem semantic_results_capped_and_truncated_witness :
    ((⟨"a.md", "[Chunk 0 from a.md]", 7/10, 0⟩ : SemanticSearchResult) ∈
        (semantic_search (fun _ => (0 : ℚ)) (fun _ _ => (7/10 : ℚ))
          ⟨[("a.md:0:h", (0 : ℚ))], []⟩ ("q".toList) 5 (1/2)).1)
      ∧ ((7/10 : ℚ) ≤ 1)
      ∧ ((convertSemanticResult
            ⟨"a.md", "[Chunk 0 from a.md]", 7/10, 0⟩).score =
          pyInt ((7/10 : ℚ) * 5)
        ∧ (1/2 : ℚ) ≤ (7/10 : ℚ)
        ∧ (2 ≤ (convertSemanticResult
              ⟨"a.md", "[Chunk 0 from a.md]", 7/10, 0⟩).score
            ∧ (convertSemanticResult
              ⟨"a.md", "[Chunk 0 from a.md]", 7/10, 0⟩).score ≤ 5)) := by
  have hp : parse_cache_key "a.md:0:h" = ("a.md", 0, "[Chunk 0 from a.md]") := by
    decide
  have hsp : ∀ qe : ℚ,
      simPairs (fun _ _ => (7/10 : ℚ)) qe (1/2) [("a.md:0:h", (0 : ℚ))] =
        [("a.md:0:h", (7/10 : ℚ))] := by
    intro qe
    unfold simPairs
    rw [List.filterMap_cons]
    rw [if_pos (by norm_num : (1/2 : ℚ) ≤ 7/10)]
    rfl
  have hlist : (semantic_search (fun _ => (0 : ℚ)) (fun _ _ => (7/10 : ℚ))
      ⟨[("a.md:0:h", (0 : ℚ))], []⟩ ("q".toList) 5 (1/2)).1 =
      [⟨"a.md", "[Chunk 0 from a.md]", 7/10, 0⟩] := by
    have h0 : semantic_search (fun _ => (0 : ℚ)) (fun _ _ => (7/10 : ℚ))
        ⟨[("a.md:0:h", (0 : ℚ))], []⟩ ("q".toList) 5 (1/2) =
        (((sortDescBy (fun x => x.2)
            (simPairs (fun _ _ => (7/10 : ℚ)) ((fun _ => (0 : ℚ)) ("q".toList))
              (1/2) [("a.md:0:h", (0 : ℚ))])).take 5).map
          (fun ks =>
            ⟨(parse_cache_key ks.1).1, (parse_cache_key ks.1).2.2, ks.2,
              (parse_cache_key ks.1).2.1⟩), 1) := by
      unfold semantic_search
      rw [if_neg (by simp)]
    rw [h0, hsp ((fun _ => (0 : ℚ)) ("q".toList))]
    show [(⟨(parse_cache_key "a.md:0:h").1, (parse_cache_key "a.md:0:h").2.2,
        (7/10 : ℚ), (parse_cache_key "a.md:0:h").2.1⟩ : SemanticSearchResult)] =
      [⟨"a.md", "[Chunk 0 from a.md]", 7/10, 0⟩]
    rw [hp]
  have hmem : (⟨"a.md", "[Chunk 0 from a.md]", 7/10, 0⟩ : SemanticSearchResult) ∈
      (semantic_search (fun _ => (0 : ℚ)) (fun _ _ => (7/10 : ℚ))
        ⟨[("a.md:0:h", (0 : ℚ))], []⟩ ("q".toList) 5 (1/2)).1 := by
    rw [hlist]
    exact List.mem_singleton.mpr rfl
  refine ⟨hmem, by norm_num, ?_⟩
  have h := (semantic_results_capped_and_truncated (fun _ => (0 : ℚ))
      (fun _ _ => (7/10 : ℚ)) ⟨[("a.md:0:h", (0 : ℚ))], []⟩ ("q".toList)).2.2
    ⟨"a.md", "[Chunk 0 from a.md]", 7/10, 0⟩ hmem
  exact ⟨h.1, h.2.1, h.2.2 (by norm_num)⟩

/-! ## Cosine similarity (semantic_search.py lines 176-185)

The numpy float arithmetic is embedded as exact real arithmetic: `np.dot`
of two 1-D vectors is the sum of component products and `np.linalg.norm` is
the square root of the sum of squares.  Real semantics has no NaN; the
meaningful residue of the no-NaN claim is that the guarded division never
divides by zero, which is proved below. -/

/-- Embeds `np.dot(vec1, vec2)` for 1-D arrays. -/
noncomputable def npDot (v1 v2 : List ℝ) : ℝ :=
  (List.zipWith (· * ·) v1 v2).sum

/-- Embeds `np.linalg.norm(vec)`. -/
noncomputable def npNorm (v : List ℝ) : ℝ :=
  Real.sqrt ((v.map (fun x => x * x)).sum)

open Classical in
/-- Embeds `_cosine_similarity` (semantic_search.py lines 176-185): return
0.0 when either norm is zero, else the normalised dot product. -/
noncomputable def cosine_similarity (v1 v2 : List ℝ) : ℝ :=
  if npNorm v1 = 0 ∨ npNorm v2 = 0 then 0
  else npDot v1 v2 / (npNorm v1 * npNorm v2)

/-! ## Claim C8 -/

/-- C8: `_cosine_similarity` returns `dot(a,b) / (‖a‖ * ‖b‖)` whenever both
norms are nonzero — and there the divisor is itself nonzero, so the division
branch never divides by zero — and returns exactly 0 when either vector has
zero norm.  Under the exact real semantics of the embedding the function is
total and never yields NaN. -/
theorem cosine_similarity_guarded (v1 v2 : List ℝ) :
    ((npNorm v1 = 0 ∨ npNorm v2 = 0) → cosine_similarity v1 v2 = 0)
      ∧ (npNorm v1 ≠ 0 → npNorm v2 ≠ 0 →
          cosine_similarity v1 v2 =
              npDot v1 v2 / (npNorm v1 * npNorm v2)
            ∧ npNorm v1 * npNorm v2 ≠ 0) := by
  constructor
  · intro h
    unfold cosine_similarity
    rw [if_pos h]
  · intro h1 h2
    have hcond : ¬(npNorm v1 = 0 ∨ npNorm v2 = 0) := by
      rintro (h | h)
      · exact h1 h
      · exact h2 h
    constructor
    · unfold cosine_similarity
      rw [if_neg hcond]
    · exact mul_ne_zero h1 h2

/-- C8 witness: the guard at a unit vector and at the empty (zero-norm)
vector. -/
theorem cosine_similarity_guarded_witness :
    (npNorm [(1 : ℝ)] ≠ 0
      ∧ (cosine_similarity [(1 : ℝ)] [(1 : ℝ)] =
            npDot [(1 : ℝ)] [(1 : ℝ)] / (npNorm [(1 : ℝ)] * npNorm [(1 : ℝ)])
          ∧ npNorm [(1 : ℝ)] * npNorm [(1 : ℝ)] ≠ 0))
      ∧ (npNorm ([] : List ℝ) = 0
          ∧ cosine_similarity ([] : List ℝ) [(1 : ℝ)] = 0) := by
  have h1 : npNorm [(1 : ℝ)] = 1 := by
    unfold npNorm
    simp
  have h0 : npNorm ([] : List ℝ) = 0 := by
    unfold npNorm
    simp
  refine ⟨⟨by rw [h1]; exact one_ne_zero, ?_⟩, h0, ?_⟩
  · exact (cosine_similarity_guarded [(1 : ℝ)] [(1 : ℝ)]).2
      (by rw [h1]; exact one_ne_zero) (by rw [h1]; exact one_ne_zero)
  · exact (cosine_similarity_guarded ([] : List ℝ) [(1 : ℝ)]).1 (Or.inl h0)

end DocSearch
